import Mathlib

/-!
Verification of the first-word extraction and pattern-matching core of the
"Analisador de Primeiras Palavras" repository (src/main.py, src/app.py).

Strings are modelled as `List Char`.  Python's `str` operations used by the
code (`strip`, `lower`, `split`, `startswith`, slicing) are modelled
character-wise; the character classes are restricted to the code points the
source actually names (ASCII and the Latin-1 range `À-ÿ` appearing in the
regular expressions of `main.py`).
-/

namespace Analisador

/-- The characters treated as whitespace by Python's `str.strip` / `str.split`
(restricted to code points below 0x100): TAB..CR, space, FS..US, NEL, NBSP. -/
def pyIsSpace (c : Char) : Bool :=
  (9 ≤ c.toNat && c.toNat ≤ 13) || c.toNat = 32 ||
  (28 ≤ c.toNat && c.toNat ≤ 31) || c.toNat = 133 || c.toNat = 160

/-- The character class `[a-zA-ZÀ-ÿ0-9]` from `main.py`'s
`re.sub(r'^[^a-zA-ZÀ-ÿ0-9]+', '', text)`.  Note that the range `À-ÿ`
(0xC0..0xFF) includes `×` (0xD7) and `÷` (0xF7). -/
def isAlnumChar (c : Char) : Bool :=
  (48 ≤ c.toNat && c.toNat ≤ 57) || (65 ≤ c.toNat && c.toNat ≤ 90) ||
  (97 ≤ c.toNat && c.toNat ≤ 122) || (192 ≤ c.toNat && c.toNat ≤ 255)

/-- Python's regex word class `\w` (letters, digits, underscore), restricted
to code points below 0x100.  Besides ASCII alphanumerics and `_` it contains
the Latin-1 word characters: the ordinal indicators `ª` (0xAA) and `º`
(0xBA), the superscripts `²` `³` `¹` (0xB2, 0xB3, 0xB9), the micro sign `µ`
(0xB5), the fractions `¼` `½` `¾` (0xBC..0xBE), and the letters `À-ÿ`
(0xC0..0xFF) minus the operators `×` (0xD7) and `÷` (0xF7). -/
def isReWordChar (c : Char) : Bool :=
  (48 ≤ c.toNat && c.toNat ≤ 57) || (65 ≤ c.toNat && c.toNat ≤ 90) ||
  (97 ≤ c.toNat && c.toNat ≤ 122) || c.toNat = 95 ||
  c.toNat = 170 || c.toNat = 178 || c.toNat = 179 || c.toNat = 181 ||
  c.toNat = 185 || c.toNat = 186 || (188 ≤ c.toNat && c.toNat ≤ 190) ||
  (192 ≤ c.toNat && c.toNat ≤ 255 && c.toNat ≠ 215 && c.toNat ≠ 247)

/-- Python's `str.lower`, character-wise, restricted to ASCII and Latin-1:
`A-Z` and `À-Þ` (except `×`) map down by 0x20, everything else is unchanged. -/
def pyCharToLower (c : Char) : Char :=
  if (65 ≤ c.toNat && c.toNat ≤ 90) ||
     (192 ≤ c.toNat && c.toNat ≤ 222 && c.toNat ≠ 215) then
    Char.ofNat (c.toNat + 32)
  else c

/-- `text.lower()`. -/
def lowerStr (s : List Char) : List Char :=
  s.map pyCharToLower

/-- Remove trailing whitespace (helper for `pyStrip`). -/
def stripRight (s : List Char) : List Char :=
  (s.reverse.dropWhile pyIsSpace).reverse

/-- Python's `str.strip()`: remove leading and trailing whitespace. -/
def pyStrip (s : List Char) : List Char :=
  stripRight (s.dropWhile pyIsSpace)

/-- `text.lower().startswith(phrase.lower())`. -/
def startsWithCI (phrase text : List Char) : Bool :=
  (lowerStr phrase).isPrefixOf (lowerStr text)

/-- Stable insertion for `sortInsert`: the new element `x` goes after every
already-placed element `y` with `keep x y` (read "`y` stays before `x`"). -/
def insertSkip (keep : α → α → Bool) (x : α) : List α → List α
  | [] => [x]
  | y :: ys => if keep x y then y :: insertSkip keep x ys else x :: y :: ys

/-- Stable insertion sort, modelling Python's (stable) `sorted`. -/
def sortInsert (keep : α → α → Bool) : List α → List α
  | [] => []
  | x :: xs => insertSkip keep x (sortInsert keep xs)

/-- `sorted(ignore_phrases, key=len, reverse=True)`: the ignore-phrase set
(modelled as a list in iteration order) sorted by length descending. -/
def sortPhrasesDesc (ph : List (List Char)) : List (List Char) :=
  sortInsert (fun p q => decide (p.length < q.length)) ph

/-- `text.split()[0]` as an `Option`: drop leading whitespace and take the
first whitespace-delimited token; `none` when there is no token (Python's
`[0]` would raise `IndexError` there). -/
def firstToken (s : List Char) : Option (List Char) :=
  let s' := s.dropWhile pyIsSpace
  if s'.isEmpty then none else some (s'.takeWhile (fun c => !pyIsSpace c))

/-- `x in stopwords`, with the stopword set modelled as a list. -/
def memStr (x : List Char) (l : List (List Char)) : Bool :=
  l.any (fun y => decide (y = x))

/-- A Python value passed to `extract_first_word`: `None`/NaN, a string, or
any other (non-null, non-string) value. -/
inductive PyInput where
  | pynone : PyInput
  | pystr : List Char → PyInput
  | pyother : PyInput
deriving DecidableEq

/-- `main.py`'s `extract_first_word(text, stopwords, ignore_phrases)`,
fuel-indexed because the recursive ignore-phrase stripping need not terminate
when the phrase set contains the empty string.

Result: `none` means the fuel ran out (the Python recursion is still
running); `some (.error ())` models the `IndexError` raised by
`re.sub(...).split()[0]` when the stripped text contains no alphanumeric
character; `some (.ok none)` models `return None` ("no word");
`some (.ok (some w))` models returning the token `w`. -/
def extractFirstWordFuel :
    Nat → PyInput → List (List Char) → List (List Char) →
    Option (Except Unit (Option (List Char)))
  | 0, _, _, _ => none
  | _ + 1, PyInput.pynone, _, _ => some (Except.ok none)
  | _ + 1, PyInput.pyother, _, _ => some (Except.ok none)
  | fuel + 1, PyInput.pystr s, sw, ph =>
    -- text = text.strip(); if not text: return None
    let t := pyStrip s
    if t.isEmpty then some (Except.ok none)
    else
      -- for phrase in sorted(ignore_phrases, key=len, reverse=True): ...
      match (sortPhrasesDesc ph).find? (fun p => startsWithCI p t) with
      | some p =>
        -- remaining_text = text[len(phrase):].strip()
        let remaining := pyStrip (t.drop p.length)
        if remaining.isEmpty then some (Except.ok none)
        else extractFirstWordFuel fuel (PyInput.pystr remaining) sw ph
      | none =>
        -- first_word = re.sub(r'^[^a-zA-ZÀ-ÿ0-9]+', '', text).split()[0]
        match firstToken (t.dropWhile (fun c => !isAlnumChar c)) with
        | none => some (Except.error ())   -- IndexError: list index out of range
        | some w =>
          -- if stopwords and first_word and first_word.lower() in stopwords
          if !sw.isEmpty && memStr (lowerStr w) sw then some (Except.ok none)
          -- if first_word and len(first_word) < 3
          else if w.length < 3 then some (Except.ok none)
          else some (Except.ok (some w))

/-- `extract_first_word` with its default fuel `length + 1`, which suffices
whenever every ignore-phrase is non-empty (each stripping step removes at
least one character). -/
def extract_first_word (inp : PyInput) (sw ph : List (List Char)) :
    Option (Except Unit (Option (List Char))) :=
  match inp with
  | PyInput.pystr s => extractFirstWordFuel (s.length + 1) inp sw ph
  | _ => extractFirstWordFuel 1 inp sw ph

/-- The `DEFAULT_STOPWORDS` set of `main.py` / `app.py` (as a list). -/
def DEFAULT_STOPWORDS : List (List Char) :=
  ["de".toList, "para".toList, "com".toList, "sem".toList, "em".toList,
   "por".toList, "que".toList, "os".toList, "as".toList, "um".toList,
   "uma".toList, "ao".toList, "aos".toList, "do".toList, "da".toList,
   "dos".toList, "das".toList, "no".toList, "na".toList, "nos".toList,
   "nas".toList, "pelo".toList, "pela".toList, "pelos".toList,
   "pelas".toList, "este".toList, "esta".toList, "estes".toList,
   "estas".toList, "esse".toList, "essa".toList, "esses".toList,
   "essas".toList, "aquele".toList, "aquela".toList, "aqueles".toList,
   "aquelas".toList, "ou".toList, "e".toList, "mas".toList,
   "porém".toList, "entretanto".toList, "contudo".toList, "quando".toList,
   "enquanto".toList, "como".toList, "porque".toList, "pois".toList,
   "assim".toList, "então".toList, "logo".toList, "portanto".toList,
   "desse".toList, "dessa".toList, "destes".toList, "destas".toList,
   "deste".toList, "isso".toList, "isto".toList, "aquilo".toList]

/-- First-word extraction as described by the spec (section 4.1), for string
inputs, with the same fuel discipline as the code.  It differs from the code
only where the spec's words differ: when the remaining text contains no
alphanumeric character there is no token and the spec's step 4 yields
"no word" (`some none`) instead of raising, and step 4 states the single
condition "in the stopword set, or its length is below 3" with no emptiness
guard on the stopword set.  `none` = "no word". -/
def specExtractFirstWordFuel :
    Nat → List Char → List (List Char) → List (List Char) →
    Option (Option (List Char))
  | 0, _, _, _ => none
  | fuel + 1, s, sw, ph =>
    -- step 1: trim whitespace; if empty, result is "no word"
    let t := pyStrip s
    if t.isEmpty then some none
    else
      -- step 2: strip a leading ignore-phrase, longest first, case-insensitively
      match (sortPhrasesDesc ph).find? (fun p => startsWithCI p t) with
      | some p =>
        let remaining := pyStrip (t.drop p.length)
        if remaining.isEmpty then some none
        else specExtractFirstWordFuel fuel remaining sw ph
      | none =>
        -- step 3: drop leading non-alphanumerics, take first token (if any)
        match firstToken (t.dropWhile (fun c => !isAlnumChar c)) with
        | none => some none
        | some w =>
          -- step 4: stopword or too short means "no word", else the token
          if memStr (lowerStr w) sw || w.length < 3 then some none
          else some (some w)

/-- One row of the attribute configuration: a variation label together with
its list of recognition patterns (`{"variation": ..., "patterns": [...]}`
in `load_config`). -/
structure VariationData where
  variation : List Char
  patterns : List (List Char)
deriving DecidableEq

/-- Is the character at index `i` a regex word character (`\w`)?  Out of
bounds counts as non-word. -/
def isWordAt (t : List Char) (i : Nat) : Bool :=
  match t[i]? with
  | some c => isReWordChar c
  | none => false

/-- Is position `i` (`0 ≤ i ≤ t.length`) a regex word boundary `\b` of `t`? -/
def boundaryAt (t : List Char) (i : Nat) : Bool :=
  (if i = 0 then false else isWordAt t (i - 1)) != isWordAt t i

/-- `re.search(rf'\b{re.escape(pattern)}\b', text_lower, re.IGNORECASE)`
as a Boolean: the literal pattern occurs (case-insensitively) somewhere in
`tl`, delimited by word boundaries on both sides. -/
def patternFound (tl p : List Char) : Bool :=
  (List.range (tl.length + 1)).any (fun i =>
    decide (i + p.length ≤ tl.length) &&
    decide (lowerStr ((tl.drop i).take p.length) = lowerStr p) &&
    boundaryAt tl i && boundaryAt tl (i + p.length))

/-- The inner loop of `find_matches`: a variation is recorded (and the loop
over its patterns `break`s) as soon as one of its patterns is found. -/
def variationMatched (tl : List Char) (vd : VariationData) : Bool :=
  vd.patterns.any (patternFound tl)

/-- Lexicographic (code-point) order on strings, Python's `<`. -/
def ltStr : List Char → List Char → Bool
  | [], [] => false
  | [], _ :: _ => true
  | _ :: _, [] => false
  | a :: as, b :: bs => if a < b then true else if b < a then false else ltStr as bs

/-- Python's `sorted` on a list of strings. -/
def sortStrAsc (l : List (List Char)) : List (List Char) :=
  sortInsert (fun x y => ltStr y x) l

/-- Fuel-indexed helper for `distinctFirst`; `n ≥ l.length` always suffices
since filtering never lengthens the list. -/
def distinctFirstFuel : Nat → List (List Char) → List (List Char)
  | 0, _ => []
  | n + 1, l =>
    match l with
    | [] => []
    | w :: ws => w :: distinctFirstFuel n (ws.filter (fun x => decide (x ≠ w)))

/-- Keep the first occurrence of each element (the elements of `set(v)`,
in first-appearance order). -/
def distinctFirst (l : List (List Char)) : List (List Char) :=
  distinctFirstFuel l.length l

/-- `"/".join(strings)`. -/
def joinSlash (l : List (List Char)) : List Char :=
  List.intercalate ['/'] l

/-- One entry of `find_matches`' result dict: an attribute together with its
variation rows yields `attribute ↦ "/".join(sorted(set(matched labels)))`
when at least one variation matched, and no entry otherwise (a `defaultdict`
key is only created when a variation is appended). -/
def findMatchesRow (tl : List Char) (av : List Char × List VariationData) :
    Option (List Char × List Char) :=
  let ms := (av.2.filter (variationMatched tl)).map VariationData.variation
  if ms.isEmpty then none
  else some (av.1, joinSlash (sortStrAsc (distinctFirst ms)))

/-- `main.py`'s `find_matches(text, config)`.  The attribute configuration
dict is modelled as an association list (attribute, variation rows) in
insertion order with distinct attribute keys; the returned dict likewise.
Only string `text` inputs are modelled (an empty string is falsy, like the
`None`/non-string cases that the guard also sends to `{}`). -/
def find_matches (t : List Char)
    (config : List (List Char × List VariationData)) :
    List (List Char × List Char) :=
  if t.isEmpty || config.isEmpty then []
  else config.filterMap (findMatchesRow (lowerStr t))

/-- Number of occurrences of `w` in `ws` (a `Counter` entry's count). -/
def countOcc (w : List Char) (ws : List (List Char)) : Nat :=
  ws.countP (fun x => decide (x = w))

/-- `Counter(ws).items()`: the distinct words in first-occurrence order
(Python dicts preserve insertion order), each with its count. -/
def counterItems (ws : List (List Char)) : List (List Char × Nat) :=
  (distinctFirst ws).map (fun w => (w, countOcc w ws))

/-- `sorted(items, key=itemgetter(1), reverse=True)`: stable sort by count
descending (a later element goes after an earlier one with a larger or, on
ties, equal count). -/
def sortByCountDesc (l : List (List Char × Nat)) : List (List Char × Nat) :=
  sortInsert (fun p q => decide (p.2 < q.2)) l

/-- `Counter(ws).most_common()` — the frequency aggregator used by
`analyze_first_words` (app.py) and by `main` (main.py line 321). -/
def most_common (ws : List (List Char)) : List (List Char × Nat) :=
  sortByCountDesc (counterItems ws)

/-- Index of the first occurrence of `w` in `ws` (the position at which `w`
was first encountered). -/
def firstIdx (w : List Char) (ws : List (List Char)) : Nat :=
  ws.findIdx (fun x => decide (x = w))

/-- Two attribute configurations that differ only in the order of the
patterns inside each variation: same attributes in the same order, same
variation labels in the same order, pattern lists permuted. -/
def ConfigPermEquiv (c1 c2 : List (List Char × List VariationData)) : Prop :=
  List.Forall₂ (fun x y => x.1 = y.1 ∧
    List.Forall₂ (fun u v => u.variation = v.variation ∧
      List.Perm u.patterns v.patterns) x.2 y.2) c1 c2

/-- The attribute configuration `{Voltagem: [{110v: ["110v", "110 v"]}]}`
of the spec's worked example. -/
def voltagemConfig : List (List Char × List VariationData) :=
  [("Voltagem".toList, [⟨"110v".toList, ["110v".toList, "110 v".toList]⟩])]

instance : DecidableEq (Except Unit (Option (List Char)))
  | Except.ok x, Except.ok y =>
    if h : x = y then isTrue (by rw [h])
    else isFalse (fun hh => h (Except.ok.inj hh))
  | Except.error x, Except.error y =>
    if h : x = y then isTrue (by rw [h])
    else isFalse (fun hh => h (Except.error.inj hh))
  | Except.ok _, Except.error _ => isFalse (fun hh => Except.noConfusion hh)
  | Except.error _, Except.ok _ => isFalse (fun hh => Except.noConfusion hh)

/-! ### Helper lemmas -/

theorem alnum_not_space {c : Char} (h : isAlnumChar c = true) :
    pyIsSpace c = false := by
  revert h
  unfold isAlnumChar pyIsSpace
  simp only [Bool.or_eq_true, Bool.and_eq_true, decide_eq_true_eq,
    Bool.or_eq_false_iff, Bool.and_eq_false_iff, decide_eq_false_iff_not]
  omega

theorem dropWhile_idem (p : α → Bool) (l : List α) :
    List.dropWhile p (List.dropWhile p l) = List.dropWhile p l := by
  induction l with
  | nil => rfl
  | cons c r ih =>
    rw [List.dropWhile_cons]
    by_cases hc : p c = true
    · rw [if_pos hc, ih]
    · rw [if_neg hc, List.dropWhile_cons, if_neg hc]

theorem stripRight_prefix_self (s : List Char) : stripRight s <+: s := by
  unfold stripRight
  have h := List.dropWhile_suffix (l := s.reverse) pyIsSpace
  rw [← List.reverse_prefix] at h
  simpa using h

theorem stripRight_idem (s : List Char) : stripRight (stripRight s) = stripRight s := by
  unfold stripRight
  rw [List.reverse_reverse, dropWhile_idem]

theorem dropWhile_ne_cons_self {p : α → Bool} {c : α} {r : List α}
    (h : List.dropWhile p (c :: r) = c :: r) : p c = false := by
  by_cases hc : p c = true
  · rw [List.dropWhile_cons, if_pos hc] at h
    have := (List.dropWhile_suffix (l := r) p).sublist.length_le
    rw [h] at this
    simp at this
  · exact Bool.not_eq_true _ ▸ eq_false_of_ne_true hc

theorem dropWhile_stripRight_of {m : List Char}
    (h : List.dropWhile pyIsSpace m = m) :
    List.dropWhile pyIsSpace (stripRight m) = stripRight m := by
  cases hm : stripRight m with
  | nil => rfl
  | cons c r =>
    have hpre : (c :: r) <+: m := hm ▸ stripRight_prefix_self m
    obtain ⟨t, ht⟩ := hpre
    have hc : pyIsSpace c = false := by
      apply dropWhile_ne_cons_self (r := r ++ t)
      have hm2 : c :: (r ++ t) = m := by rw [← ht]; rfl
      rw [hm2]
      exact h
    rw [List.dropWhile_cons, hc]
    simp

theorem dropWhile_pyStrip (s : List Char) :
    (pyStrip s).dropWhile pyIsSpace = pyStrip s :=
  dropWhile_stripRight_of (dropWhile_idem pyIsSpace s)

theorem pyStrip_idem (s : List Char) : pyStrip (pyStrip s) = pyStrip s := by
  unfold pyStrip
  rw [show (stripRight (s.dropWhile pyIsSpace)).dropWhile pyIsSpace
      = stripRight (s.dropWhile pyIsSpace) from
    dropWhile_stripRight_of (dropWhile_idem pyIsSpace s), stripRight_idem]

theorem pyStrip_prefix_dropWhile (s : List Char) :
    pyStrip s <+: s.dropWhile pyIsSpace :=
  stripRight_prefix_self _

theorem mem_of_mem_pyStrip {c : Char} {s : List Char} (h : c ∈ pyStrip s) : c ∈ s :=
  (List.dropWhile_suffix pyIsSpace).subset ((pyStrip_prefix_dropWhile s).subset h)

theorem length_pyStrip_le (s : List Char) : (pyStrip s).length ≤ s.length :=
  le_trans (pyStrip_prefix_dropWhile s).sublist.length_le
    (List.dropWhile_suffix pyIsSpace).sublist.length_le

theorem insertSkip_perm (keep : α → α → Bool) (x : α) (l : List α) :
    List.Perm (insertSkip keep x l) (x :: l) := by
  induction l with
  | nil => rfl
  | cons y ys ih =>
    unfold insertSkip
    by_cases hk : keep x y = true
    · rw [if_pos hk]
      exact (ih.cons y).trans (List.Perm.swap x y ys)
    · rw [if_neg hk]

theorem sortInsert_perm (keep : α → α → Bool) (l : List α) :
    List.Perm (sortInsert keep l) l := by
  induction l with
  | nil => rfl
  | cons x xs ih => exact (insertSkip_perm keep x (sortInsert keep xs)).trans (ih.cons x)

theorem mem_sortPhrasesDesc {p : List Char} {ph : List (List Char)} :
    p ∈ sortPhrasesDesc ph ↔ p ∈ ph :=
  (sortInsert_perm _ ph).mem_iff

theorem memStr_iff {x : List Char} {l : List (List Char)} :
    memStr x l = true ↔ x ∈ l := by
  unfold memStr
  rw [List.any_eq_true]
  constructor
  · rintro ⟨y, hy, he⟩
    exact (of_decide_eq_true he) ▸ hy
  · intro hx
    exact ⟨x, hx, by simp⟩

theorem firstToken_not_space {s w : List Char} (h : firstToken s = some w) :
    ∀ c ∈ w, pyIsSpace c = false := by
  unfold firstToken at h
  by_cases he : (s.dropWhile pyIsSpace).isEmpty = true
  · simp [he] at h
  · simp only [he, Bool.false_eq_true, if_false, Option.some.injEq] at h
    intro c hc
    have := List.mem_takeWhile_imp (h ▸ hc)
    simpa using this

theorem dropWhile_eq_self_of_head {p : α → Bool} {l : List α}
    (h : ∀ c, l.head? = some c → p c = false) : l.dropWhile p = l := by
  cases l with
  | nil => rfl
  | cons c r => rw [List.dropWhile_cons, h c rfl]; simp

theorem stripRight_eq_self {l : List Char}
    (h : ∀ c, l.getLast? = some c → pyIsSpace c = false) : stripRight l = l := by
  unfold stripRight
  rw [dropWhile_eq_self_of_head, List.reverse_reverse]
  intro c hc
  exact h c (by rwa [List.head?_reverse] at hc)

theorem pyStrip_eq_self {l : List Char}
    (h1 : ∀ c, l.head? = some c → pyIsSpace c = false)
    (h2 : ∀ c, l.getLast? = some c → pyIsSpace c = false) : pyStrip l = l := by
  unfold pyStrip
  rw [dropWhile_eq_self_of_head h1, stripRight_eq_self h2]

theorem takeWhile_append_sat {p : α → Bool} {w r : List α} {x : α}
    (h1 : ∀ c ∈ w, p c = true) (h2 : p x = false) :
    List.takeWhile p (w ++ x :: r) = w := by
  induction w with
  | nil => rw [List.nil_append, List.takeWhile_cons, h2]; rfl
  | cons c w' ih =>
    rw [List.cons_append, List.takeWhile_cons, h1 c (List.mem_cons_self _ _)]
    simp only [if_true, List.cons.injEq, true_and]
    exact ih (fun c hc => h1 c (List.mem_cons_of_mem _ hc))

theorem find?_eq_some_of_unique {p : α → Bool} {l : List α} {a : α}
    (ha : a ∈ l) (hpa : p a = true) (huniq : ∀ x ∈ l, p x = true → x = a) :
    l.find? p = some a := by
  induction l with
  | nil => cases ha
  | cons c r ih =>
    by_cases hc : p c = true
    · rw [List.find?_cons_of_pos _ hc, huniq c (List.mem_cons_self _ _) hc]
    · rw [List.find?_cons_of_neg _ hc]
      rcases List.mem_cons.mp ha with rfl | har
    -- a at the head would satisfy p, contradicting hc
      · exact absurd hpa hc
      · exact ih har (fun x hx hpx => huniq x (List.mem_cons_of_mem _ hx) hpx)

theorem startsWithCI_nil (t : List Char) : startsWithCI [] t = true := by
  unfold startsWithCI
  rw [ List.isPrefixOf_iff_prefix]
  exact List.nil_prefix

theorem lowerStr_mono {l₁ l₂ : List Char} (h : l₁ <+: l₂) :
    lowerStr l₁ <+: lowerStr l₂ :=
  List.IsPrefix.map pyCharToLower h

theorem startsWithCI_of_prefix_token {p w t : List Char}
    (hpw : (lowerStr p).isPrefixOf (lowerStr w) = true) (hwt : w <+: t) :
    startsWithCI p t = true := by
  unfold startsWithCI
  rw [ List.isPrefixOf_iff_prefix] at hpw ⊢
  exact hpw.trans (lowerStr_mono hwt)

theorem mem_distinctFirstFuel {x : List Char} :
    ∀ {n : Nat} {l : List (List Char)}, x ∈ distinctFirstFuel n l → x ∈ l := by
  intro n
  induction n with
  | zero =>
    intro l h
    rw [show distinctFirstFuel 0 l = [] from rfl] at h
    cases h
  | succ n ih =>
    intro l h
    cases l with
    | nil => cases h
    | cons w ws =>
      rcases List.mem_cons.mp h with rfl | hr
      · exact List.mem_cons_self _ _
      · exact List.mem_cons_of_mem _ (List.mem_filter.mp (ih hr)).1

theorem mem_distinctFirstFuel_of_mem {x : List Char} :
    ∀ {n : Nat} {l : List (List Char)}, l.length ≤ n → x ∈ l →
      x ∈ distinctFirstFuel n l := by
  intro n
  induction n with
  | zero =>
    intro l hn hx
    cases l with
    | nil => cases hx
    | cons w ws => simp at hn
  | succ n ih =>
    intro l hn hx
    cases l with
    | nil => cases hx
    | cons w ws =>
      rcases List.mem_cons.mp hx with rfl | hr
      · exact List.mem_cons_self _ _
      · by_cases hxw : x = w
        · exact hxw ▸ List.mem_cons_self _ _
        · refine List.mem_cons_of_mem _ (ih ?_ ?_)
          · calc (ws.filter (fun y => decide (y ≠ w))).length
                ≤ ws.length := List.length_filter_le _ _
              _ ≤ n := by simpa using hn
          · exact List.mem_filter.mpr ⟨hr, by simpa using hxw⟩

theorem firstIdx_cons_self (w : List Char) (l : List (List Char)) :
    firstIdx w (w :: l) = 0 := by
  unfold firstIdx
  rw [List.findIdx_cons]
  simp

theorem firstIdx_cons_ne {x w : List Char} (l : List (List Char)) (h : x ≠ w) :
    firstIdx x (w :: l) = firstIdx x l + 1 := by
  unfold firstIdx
  rw [List.findIdx_cons]
  have : decide (w = x) = false := by simp [Ne.symm h]
  rw [this]
  rfl

theorem firstIdx_lt_of_filter {pb : List Char → Bool} {a b : List Char} :
    ∀ {l : List (List Char)}, pb a = true → pb b = true →
      firstIdx a (l.filter pb) < firstIdx b (l.filter pb) →
      firstIdx a l < firstIdx b l := by
  intro l
  induction l with
  | nil => intro _ _ h; exact absurd h (lt_irrefl _)
  | cons c l' ih =>
    intro ha hb h
    by_cases hc : pb c = true
    · rw [List.filter_cons_of_pos hc] at h
      by_cases hca : c = a
      · subst hca
        rw [firstIdx_cons_self] at h ⊢
        by_cases hcb : c = b
        · subst hcb; rw [firstIdx_cons_self] at h; exact absurd h (lt_irrefl _)
        · rw [firstIdx_cons_ne _ (Ne.symm hcb)]
          exact Nat.succ_pos _
      · rw [firstIdx_cons_ne _ (fun hh => hca hh.symm)] at h ⊢
        by_cases hcb : c = b
        · subst hcb
          rw [firstIdx_cons_self] at h
          exact absurd h (Nat.not_lt_zero _)
        · rw [firstIdx_cons_ne _ (fun hh => hcb hh.symm)] at h ⊢
          exact Nat.succ_lt_succ (ih ha hb (Nat.lt_of_succ_lt_succ h))
    · rw [List.filter_cons_of_neg hc] at h
      have hca : c ≠ a := fun hh => hc (hh ▸ ha)
      have hcb : c ≠ b := fun hh => hc (hh ▸ hb)
      rw [firstIdx_cons_ne _ (Ne.symm hca), firstIdx_cons_ne _ (Ne.symm hcb)]
      exact Nat.succ_lt_succ (ih ha hb h)

theorem distinctFirstFuel_pairwise_firstIdx :
    ∀ (n : Nat) (l : List (List Char)), l.length ≤ n →
      (distinctFirstFuel n l).Pairwise (fun a b => firstIdx a l < firstIdx b l) := by
  intro n
  induction n with
  | zero =>
    intro l _
    rw [show distinctFirstFuel 0 l = [] from rfl]
    exact List.Pairwise.nil
  | succ n ih =>
    intro l hn
    cases l with
    | nil => exact List.Pairwise.nil
    | cons w ws =>
      have hlen : (ws.filter (fun y => decide (y ≠ w))).length ≤ n :=
        le_trans (List.length_filter_le _ _) (by simpa using hn)
      refine List.Pairwise.cons ?_ ?_
      · intro b hb
        have hbf := mem_distinctFirstFuel hb
        have hbw : b ≠ w := by simpa using (List.mem_filter.mp hbf).2
        rw [firstIdx_cons_self, firstIdx_cons_ne _ hbw]
        exact Nat.succ_pos _
      · refine List.Pairwise.imp_of_mem ?_ (ih _ hlen)
        intro a b hma hmb hab
        have hfa := List.mem_filter.mp (mem_distinctFirstFuel hma)
        have hfb := List.mem_filter.mp (mem_distinctFirstFuel hmb)
        have haw : a ≠ w := by simpa using hfa.2
        have hbw : b ≠ w := by simpa using hfb.2
        rw [firstIdx_cons_ne _ haw, firstIdx_cons_ne _ hbw]
        exact Nat.succ_lt_succ (firstIdx_lt_of_filter hfa.2 hfb.2 hab)

theorem insertSkip_count_pairwise {S : List Char × Nat → List Char × Nat → Prop}
    {p : List Char × Nat} {acc : List (List Char × Nat)}
    (h1 : acc.Pairwise (fun a b => b.2 < a.2 ∨ (a.2 = b.2 ∧ S a b)))
    (h2 : ∀ q ∈ acc, S p q) :
    (insertSkip (fun a b => decide (a.2 < b.2)) p acc).Pairwise
      (fun a b => b.2 < a.2 ∨ (a.2 = b.2 ∧ S a b)) := by
  induction acc with
  | nil => exact List.pairwise_singleton _ _
  | cons q qs ih =>
    unfold insertSkip
    rcases List.pairwise_cons.mp h1 with ⟨hq, hqs⟩
    by_cases hk : p.2 < q.2
    · rw [if_pos (by simpa using hk)]
      refine List.Pairwise.cons ?_ (ih hqs (fun r hr => h2 r (List.mem_cons_of_mem _ hr)))
      intro r hr
      rcases List.mem_cons.mp ((insertSkip_perm _ _ _).mem_iff.mp hr) with rfl | hrqs
      · exact Or.inl hk
      · exact hq r hrqs
    · rw [if_neg (by simpa using hk)]
      have hqp : q.2 ≤ p.2 := Nat.le_of_not_lt hk
      refine List.Pairwise.cons ?_ h1
      intro r hr
      rcases List.mem_cons.mp hr with rfl | hrqs
      · rcases Nat.lt_or_ge r.2 p.2 with hlt | hge
        · exact Or.inl hlt
        · exact Or.inr ⟨Nat.le_antisymm hge hqp, h2 r (List.mem_cons_self _ _)⟩
      · rcases hq r hrqs with hlt | hand
        · exact Or.inl (Nat.lt_of_lt_of_le hlt hqp)
        · rcases Nat.lt_or_ge r.2 p.2 with hlt2 | hge2
          · exact Or.inl hlt2
          · refine Or.inr ⟨Nat.le_antisymm hge2 (hand.1 ▸ hqp), h2 r (List.mem_cons_of_mem _ hrqs)⟩

theorem sortInsert_count_pairwise {S : List Char × Nat → List Char × Nat → Prop} :
    ∀ {l : List (List Char × Nat)}, l.Pairwise S →
      (sortInsert (fun a b => decide (a.2 < b.2)) l).Pairwise
        (fun a b => b.2 < a.2 ∨ (a.2 = b.2 ∧ S a b)) := by
  intro l
  induction l with
  | nil => intro _; exact List.Pairwise.nil
  | cons p ps ih =>
    intro hl
    rcases List.pairwise_cons.mp hl with ⟨hp, hps⟩
    unfold sortInsert
    exact insertSkip_count_pairwise (ih hps)
      (fun q hq => hp q ((sortInsert_perm _ _).mem_iff.mp hq))

theorem extract_fuel_sufficient :
    ∀ (fuel : Nat) (s : List Char) (sw ph : List (List Char)),
      (∀ p ∈ ph, p ≠ []) → s.length < fuel →
      extractFirstWordFuel fuel (PyInput.pystr s) sw ph ≠ none := by
  intro fuel
  induction fuel with
  | zero => intro s sw ph _ h; exact absurd h (Nat.not_lt_zero _)
  | succ f ih =>
    intro s sw ph hph hlen
    by_cases ht : (pyStrip s).isEmpty = true
    · simp [extractFirstWordFuel, ht]
    · have ht' : (pyStrip s).isEmpty = false := eq_false_of_ne_true ht
      cases hf : (sortPhrasesDesc ph).find? (fun p => startsWithCI p (pyStrip s)) with
      | none =>
        cases htok : firstToken ((pyStrip s).dropWhile (fun c => !isAlnumChar c)) with
        | none => simp [extractFirstWordFuel, ht', hf, htok]
        | some w =>
          simp only [extractFirstWordFuel, ht', Bool.false_eq_true, if_false, hf, htok]
          split <;> try simp
          split <;> simp
      | some p =>
        by_cases hr : (pyStrip ((pyStrip s).drop p.length)).isEmpty = true
        · simp [extractFirstWordFuel, ht', hf, hr]
        · have hr' : (pyStrip ((pyStrip s).drop p.length)).isEmpty = false :=
            eq_false_of_ne_true hr
          have heq : extractFirstWordFuel (f + 1) (PyInput.pystr s) sw ph =
              extractFirstWordFuel f
                (PyInput.pystr (pyStrip ((pyStrip s).drop p.length))) sw ph := by
            simp only [extractFirstWordFuel, ht', Bool.false_eq_true, if_false, hf, hr']
          rw [heq]
          apply ih _ sw ph hph
          have hp : p ∈ ph := mem_sortPhrasesDesc.mp (List.mem_of_find?_eq_some hf)
          have hplen : 0 < p.length := List.length_pos.mpr (hph p hp)
          have h1 : (pyStrip ((pyStrip s).drop p.length)).length ≤
              (pyStrip s).length - p.length := by
            calc (pyStrip ((pyStrip s).drop p.length)).length
                ≤ ((pyStrip s).drop p.length).length := length_pyStrip_le _
              _ = (pyStrip s).length - p.length := List.length_drop _ _
          have h2 : (pyStrip s).length ≤ s.length := length_pyStrip_le s
          have h3 : 0 < (pyStrip s).length :=
            List.length_pos.mpr (List.isEmpty_eq_false.mp ht')
          omega

theorem find?_empty_phrase {t : List Char} {ph : List (List Char)}
    (hmem : [] ∈ ph) (hfail : ∀ p ∈ ph, p ≠ [] → startsWithCI p t = false) :
    (sortPhrasesDesc ph).find? (fun p => startsWithCI p t) = some [] := by
  apply find?_eq_some_of_unique
  · exact mem_sortPhrasesDesc.mpr hmem
  · exact startsWithCI_nil t
  · intro x hx hpx
    by_contra hxne
    rw [hfail x (mem_sortPhrasesDesc.mp hx) hxne] at hpx
    cases hpx

theorem extract_diverges_aux :
    ∀ (fuel : Nat) (t : List Char) (sw ph : List (List Char)),
      t.isEmpty = false → pyStrip t = t → [] ∈ ph →
      (∀ p ∈ ph, p ≠ [] → startsWithCI p t = false) →
      extractFirstWordFuel fuel (PyInput.pystr t) sw ph = none := by
  intro fuel
  induction fuel with
  | zero => intros; rfl
  | succ f ih =>
    intro t sw ph hne hstrip hmem hfail
    have hfind := find?_empty_phrase (t := t) hmem hfail
    simp only [extractFirstWordFuel, hstrip, hne, Bool.false_eq_true, if_false,
      hfind, List.length_nil, List.drop_zero]
    exact ih t sw ph hne hstrip hmem hfail

/-! ### Claim theorems -/

/-- C9 (amended): first-word extraction terminates on every input provided
every phrase in the ignore-phrase set is non-empty — each stripping step
removes a non-empty prefix, so the default fuel `length + 1` never runs out.
If the ignore-phrase set contains the empty string, the recursion does not
terminate (every fuel runs out) on any input text whose stripped form is
non-empty and is not prefixed, case-insensitively, by any non-empty phrase of
the set — but, contrary to the original claim, it can terminate on non-empty
inputs that a non-empty phrase strips down to the empty text. -/
theorem extract_first_word_termination :
    (∀ (s : List Char) (sw ph : List (List Char)), (∀ p ∈ ph, p ≠ []) →
        extract_first_word (PyInput.pystr s) sw ph ≠ none) ∧
    (∀ (fuel : Nat) (s : List Char) (sw ph : List (List Char)),
        [] ∈ ph → (pyStrip s).isEmpty = false →
        (∀ p ∈ ph, p ≠ [] → startsWithCI p (pyStrip s) = false) →
        extractFirstWordFuel fuel (PyInput.pystr s) sw ph = none) := by
  constructor
  · intro s sw ph hph
    exact extract_fuel_sufficient _ s sw ph hph (Nat.lt_succ_self _)
  · intro fuel s sw ph hmem hne hfail
    cases fuel with
    | zero => rfl
    | succ f =>
      have hfind := find?_empty_phrase (t := pyStrip s) hmem hfail
      simp only [extractFirstWordFuel, hne, Bool.false_eq_true, if_false, hfind,
        List.length_nil, List.drop_zero, pyStrip_idem]
      exact extract_diverges_aux f (pyStrip s) sw ph hne (pyStrip_idem s) hmem hfail

/-- Witness for C9: with the non-empty phrase set `{"ab"}` extraction of
`"abc"` terminates; with the phrase set `{""}` extraction of `"xy"` exhausts
any fuel (shown here at fuel 7). -/
theorem extract_first_word_termination_witness :
    extract_first_word (PyInput.pystr "abc".toList) [] ["ab".toList] ≠ none ∧
    extractFirstWordFuel 7 (PyInput.pystr "xy".toList) [] [[]] = none :=
  ⟨extract_first_word_termination.1 "abc".toList [] ["ab".toList] (by decide),
   extract_first_word_termination.2 7 "xy".toList [] [[]] (by decide) (by decide)
     (by decide)⟩

/-- C9 counterexample: the original claim says that an ignore-phrase set that
contains the empty string makes extraction diverge on every non-empty input;
but with the set `{"abc", ""}` and the non-empty input `"abc"` the phrase
`"abc"` strips the whole text and extraction terminates (with "no word")
after one step, well within the default fuel. -/
theorem extract_empty_phrase_can_terminate :
    extract_first_word (PyInput.pystr "abc".toList) []
      ["abc".toList, ([] : List Char)] = some (Except.ok none) := rfl

/-- C7: for every input sequence of extracted words, the frequency aggregator
`most_common` returns exactly the (word, count) pairs of the input — one pair
per distinct word, whose count is its number of occurrences — ordered by
count descending, with ties between equal counts broken by the order in which
the words were first encountered in the input (`firstIdx`). -/
theorem most_common_sorted_stable (ws : List (List Char)) :
    List.Perm (most_common ws) (counterItems ws) ∧
    (∀ w c, ((w, c) ∈ most_common ws ↔ w ∈ ws ∧ c = countOcc w ws)) ∧
    (most_common ws).Pairwise (fun p q =>
      q.2 < p.2 ∨ (p.2 = q.2 ∧ firstIdx p.1 ws < firstIdx q.1 ws)) := by
  have hperm : List.Perm (most_common ws) (counterItems ws) := by
    unfold most_common sortByCountDesc
    exact sortInsert_perm _ _
  refine ⟨hperm, ?_, ?_⟩
  · intro w c
    rw [hperm.mem_iff]
    unfold counterItems
    rw [List.mem_map]
    constructor
    · rintro ⟨w', hw', he⟩
      rcases Prod.mk.injEq .. ▸ he with ⟨rfl, rfl⟩
      exact ⟨mem_distinctFirstFuel hw', rfl⟩
    · rintro ⟨hw, rfl⟩
      exact ⟨w, mem_distinctFirstFuel_of_mem le_rfl hw, rfl⟩
  · unfold most_common sortByCountDesc
    apply sortInsert_count_pairwise
      (S := fun p q => firstIdx p.1 ws < firstIdx q.1 ws)
    unfold counterItems
    rw [List.pairwise_map]
    exact distinctFirstFuel_pairwise_firstIdx _ _ le_rfl

/-- C10: every word returned by `extract_first_word` (at any fuel) is
non-empty, has length at least 3, contains no whitespace character, and its
lowercase form is not in the provided stopword set. -/
theorem extract_first_word_output_invariant :
    ∀ (fuel : Nat) (inp : PyInput) (sw ph : List (List Char)) (w : List Char),
      extractFirstWordFuel fuel inp sw ph = some (Except.ok (some w)) →
      w ≠ [] ∧ 3 ≤ w.length ∧ (∀ c ∈ w, pyIsSpace c = false) ∧ lowerStr w ∉ sw := by
  intro fuel
  induction fuel with
  | zero => intro inp sw ph w h; cases h
  | succ f ih =>
    intro inp sw ph w h
    cases inp with
    | pynone => simp [extractFirstWordFuel] at h
    | pyother => simp [extractFirstWordFuel] at h
    | pystr s =>
      by_cases ht : (pyStrip s).isEmpty = true
      · simp [extractFirstWordFuel, ht] at h
      · have ht' : (pyStrip s).isEmpty = false := eq_false_of_ne_true ht
        cases hf : (sortPhrasesDesc ph).find? (fun p => startsWithCI p (pyStrip s)) with
        | some p =>
          by_cases hr : (pyStrip ((pyStrip s).drop p.length)).isEmpty = true
          · simp [extractFirstWordFuel, ht', hf, hr] at h
          · have hr' := eq_false_of_ne_true hr
            simp only [extractFirstWordFuel, ht', Bool.false_eq_true, if_false,
              hf, hr'] at h
            exact ih _ sw ph w h
        | none =>
          cases htok : firstToken ((pyStrip s).dropWhile (fun c => !isAlnumChar c)) with
          | none => simp [extractFirstWordFuel, ht', hf, htok] at h
          | some w' =>
            simp only [extractFirstWordFuel, ht', Bool.false_eq_true, if_false,
              hf, htok] at h
            by_cases hg1 : (!sw.isEmpty && memStr (lowerStr w') sw) = true
            · rw [if_pos hg1] at h
              simp at h
            · rw [if_neg hg1] at h
              by_cases hg2 : w'.length < 3
              · rw [if_pos hg2] at h
                simp at h
              · rw [if_neg hg2] at h
                have hww : w' = w := by simpa using h
                subst hww
                refine ⟨?_, by omega, firstToken_not_space htok, ?_⟩
                · intro hnil
                  rw [hnil] at hg2
                  exact hg2 (by decide)
                · intro hmem
                  apply hg1
                  have hsw_ne : sw ≠ [] := by
                    intro hnil
                    rw [hnil] at hmem
                    cases hmem
                  rw [Bool.and_eq_true]
                  refine ⟨?_, memStr_iff.mpr hmem⟩
                  rw [Bool.not_eq_true']
                  exact List.isEmpty_eq_false.mpr hsw_ne

/-- Witness for C10: the extraction of `"arroz tipo 1"` yields `"arroz"`,
which satisfies all four invariant parts. -/
theorem extract_first_word_output_invariant_witness :
    "arroz".toList ≠ [] ∧ 3 ≤ "arroz".toList.length ∧
      (∀ c ∈ "arroz".toList, pyIsSpace c = false) ∧
      lowerStr "arroz".toList ∉ DEFAULT_STOPWORDS :=
  extract_first_word_output_invariant 13 (PyInput.pystr "arroz tipo 1".toList)
    DEFAULT_STOPWORDS [] "arroz".toList rfl

/-- C4 (amended): ignore-phrase stripping is idempotent on inputs whose
characters are all alphanumeric or whitespace: for such inputs the word
returned by extraction never begins, case-insensitively, with any
ignore-phrase, so re-running extraction on it strips nothing further.  (The
restriction is forced: when the text has leading punctuation, the phrase
check — which looks only at the raw start of the text — can miss a phrase
that the punctuation-stripping later exposes, see the counterexample.) -/
theorem extract_first_word_no_leading_phrase :
    ∀ (fuel : Nat) (s : List Char) (sw ph : List (List Char)) (w p : List Char),
      (∀ c ∈ s, isAlnumChar c = true ∨ pyIsSpace c = true) →
      extractFirstWordFuel fuel (PyInput.pystr s) sw ph = some (Except.ok (some w)) →
      p ∈ ph → startsWithCI p w = false := by
  intro fuel
  induction fuel with
  | zero => intro s sw ph w p _ h; cases h
  | succ f ih =>
    intro s sw ph w p hchars h hp
    by_cases ht : (pyStrip s).isEmpty = true
    · simp [extractFirstWordFuel, ht] at h
    · have ht' : (pyStrip s).isEmpty = false := eq_false_of_ne_true ht
      cases hf : (sortPhrasesDesc ph).find? (fun q => startsWithCI q (pyStrip s)) with
      | some q =>
        by_cases hr : (pyStrip ((pyStrip s).drop q.length)).isEmpty = true
        · simp [extractFirstWordFuel, ht', hf, hr] at h
        · have hr' := eq_false_of_ne_true hr
          simp only [extractFirstWordFuel, ht', Bool.false_eq_true, if_false,
            hf, hr'] at h
          refine ih _ sw ph w p ?_ h hp
          intro c hc
          exact hchars c
            (mem_of_mem_pyStrip (List.mem_of_mem_drop (mem_of_mem_pyStrip hc)))
      | none =>
        cases htok : firstToken ((pyStrip s).dropWhile (fun c => !isAlnumChar c)) with
        | none => simp [extractFirstWordFuel, ht', hf, htok] at h
        | some w' =>
          simp only [extractFirstWordFuel, ht', Bool.false_eq_true, if_false,
            hf, htok] at h
          by_cases hg1 : (!sw.isEmpty && memStr (lowerStr w') sw) = true
          · rw [if_pos hg1] at h
            simp at h
          · rw [if_neg hg1] at h
            by_cases hg2 : w'.length < 3
            · rw [if_pos hg2] at h
              simp at h
            · rw [if_neg hg2] at h
              have hww : w = w' := by simpa using h.symm
              subst hww
              -- the stripped text starts with an alphanumeric character, so the
              -- punctuation stripping removes nothing and the token is a prefix
              -- of the stripped text
              have hnil : pyStrip s ≠ [] := List.isEmpty_eq_false.mp ht'
              have hdrop : (pyStrip s).dropWhile (fun c => !isAlnumChar c) = pyStrip s := by
                apply dropWhile_eq_self_of_head
                intro c hc
                have hct : c ∈ pyStrip s := by
                  cases hps : pyStrip s with
                  | nil => rw [hps] at hc; cases hc
                  | cons d r =>
                    rw [hps] at hc
                    cases hc
                    exact List.mem_cons_self _ _
                have hcsp : pyIsSpace c = false := by
                  cases hps : pyStrip s with
                  | nil => exact absurd hps hnil
                  | cons d r =>
                    rw [hps] at hc
                    cases hc
                    apply dropWhile_ne_cons_self (p := pyIsSpace) (r := r)
                    rw [← hps]
                    exact dropWhile_pyStrip s
                rcases hchars c (mem_of_mem_pyStrip hct) with hal | hsp
                · rw [hal]; rfl
                · rw [hsp] at hcsp; cases hcsp
              rw [hdrop] at htok
              have hdrop2 : (pyStrip s).dropWhile pyIsSpace = pyStrip s :=
                dropWhile_pyStrip s
              have hw2 : w = (pyStrip s).takeWhile (fun c => !pyIsSpace c) := by
                unfold firstToken at htok
                simp only [hdrop2, ht', Bool.false_eq_true, if_false,
                  Option.some.injEq] at htok
                exact htok.symm
              have hwpre : w <+: pyStrip s := hw2 ▸ List.takeWhile_prefix _
              by_contra hcon
              have htrue : startsWithCI p w = true :=
                Bool.not_eq_false _ ▸ eq_true_of_ne_false hcon
              have hst : startsWithCI p (pyStrip s) = true :=
                startsWithCI_of_prefix_token htrue hwpre
              exact absurd hst
                (List.find?_eq_none.mp hf p (mem_sortPhrasesDesc.mpr hp))

/-- C4 counterexample: with ignore-phrase set `{"cota"}` the input
`"- cotando algo"` is not stripped (the raw text starts with `"- "`, not with
`"cota"`), yet the extracted word `"cotando"` does begin with the
ignore-phrase `"cota"`; re-running extraction on that output strips the
phrase and returns `"ndo"`, so stripping is not idempotent as claimed. -/
theorem extract_first_word_phrase_prefix_counterexample :
    extract_first_word (PyInput.pystr "- cotando algo".toList) [] ["cota".toList]
      = some (Except.ok (some "cotando".toList)) ∧
    startsWithCI "cota".toList "cotando".toList = true ∧
    extract_first_word (PyInput.pystr "cotando".toList) [] ["cota".toList]
      = some (Except.ok (some "ndo".toList)) :=
  ⟨rfl, rfl, rfl⟩

/-- Witness for C4: `"arroz"` consists of alphanumeric characters only and is
extracted unchanged, and it does not begin with the ignore-phrase `"item"`. -/
theorem extract_first_word_no_leading_phrase_witness :
    startsWithCI "item".toList "arroz".toList = false :=
  extract_first_word_no_leading_phrase 6 "arroz".toList [] ["item".toList]
    "arroz".toList "item".toList (by decide) rfl (by decide)

theorem getLast?_cons_of_ne_nil {a : α} {l : List α} (h : l ≠ []) :
    (a :: l).getLast? = l.getLast? := by
  cases l with
  | nil => exact absurd rfl h
  | cons b t => exact List.getLast?_cons_cons

theorem getLast?_append_right {l₁ l₂ : List α} (h : l₂ ≠ []) :
    (l₁ ++ l₂).getLast? = l₂.getLast? := by
  induction l₁ with
  | nil => rfl
  | cons a t ih =>
    rw [List.cons_append, getLast?_cons_of_ne_nil, ih]
    intro hh
    exact h (List.append_eq_nil.mp hh).2

/-- C2 (amended/corrected): when a description consists of a stopword `w`
followed by whitespace and a valid word `v`, `main.py`'s extraction does not
skip the stopword: the first token is `w`, it is found in the stopword set,
and the result is "no word" — neither `v` nor `w` is returned. -/
theorem extract_stopword_then_valid_word_no_word
    (w v : List Char) (sw : List (List Char))
    (hw_ne : w ≠ [])
    (hw_chars : ∀ c ∈ w, isAlnumChar c = true)
    (hw_mem : lowerStr w ∈ sw)
    (hv_ne : v ≠ [])
    (hv_chars : ∀ c ∈ v, isAlnumChar c = true)
    (hv_len : 3 ≤ v.length)
    (hv_not : lowerStr v ∉ sw) :
    extract_first_word (PyInput.pystr (w ++ ' ' :: v)) sw [] =
      some (Except.ok none) := by
  have hhead : ∀ c, (w ++ ' ' :: v).head? = some c → pyIsSpace c = false := by
    intro c hc
    cases w with
    | nil => exact absurd rfl hw_ne
    | cons cw w' =>
      rw [List.cons_append, List.head?_cons, Option.some.injEq] at hc
      subst hc
      exact alnum_not_space (hw_chars cw (List.mem_cons_self _ _))
  have hlast : ∀ c, (w ++ ' ' :: v).getLast? = some c → pyIsSpace c = false := by
    intro c hc
    rw [getLast?_append_right (List.cons_ne_nil _ _),
      getLast?_cons_of_ne_nil hv_ne] at hc
    have hcv : c ∈ v := List.mem_of_mem_getLast? (Option.mem_def.mpr hc)
    exact alnum_not_space (hv_chars c hcv)
  have hstrip : pyStrip (w ++ ' ' :: v) = w ++ ' ' :: v := pyStrip_eq_self hhead hlast
  have hne : (w ++ ' ' :: v).isEmpty = false := by
    rw [List.isEmpty_eq_false]
    intro hh
    exact hw_ne (List.append_eq_nil.mp hh).1
  have hdropA : (w ++ ' ' :: v).dropWhile (fun c => !isAlnumChar c) = w ++ ' ' :: v := by
    apply dropWhile_eq_self_of_head
    intro c hc
    cases w with
    | nil => exact absurd rfl hw_ne
    | cons cw w' =>
      rw [List.cons_append, List.head?_cons, Option.some.injEq] at hc
      subst hc
      rw [hw_chars cw (List.mem_cons_self _ _)]
      rfl
  have hdropS : (w ++ ' ' :: v).dropWhile pyIsSpace = w ++ ' ' :: v :=
    dropWhile_eq_self_of_head hhead
  have htok : firstToken (w ++ ' ' :: v) = some w := by
    unfold firstToken
    simp only [hdropS, hne, Bool.false_eq_true, if_false, Option.some.injEq]
    apply takeWhile_append_sat
    · intro c hc
      rw [Bool.not_eq_true']
      exact alnum_not_space (hw_chars c hc)
    · decide
  have hguard : (!sw.isEmpty && memStr (lowerStr w) sw) = true := by
    rw [Bool.and_eq_true]
    refine ⟨?_, memStr_iff.mpr hw_mem⟩
    rw [Bool.not_eq_true']
    rw [List.isEmpty_eq_false]
    intro hh
    rw [hh] at hw_mem
    cases hw_mem
  unfold extract_first_word
  simp only [extractFirstWordFuel, hstrip, hne, Bool.false_eq_true, if_false]
  rw [show (sortPhrasesDesc []).find?
      (fun p => startsWithCI p (w ++ ' ' :: v)) = none from rfl]
  simp only [hdropA, htok, hguard, if_true]

/-- C2 counterexample: `"de"` is in the default stopword set and
`"parafuso"` is a valid word (length ≥ 3, not a stopword), but extracting
`"de parafuso"` returns "no word" (`None`), not `"parafuso"` as the claim
states — the code rejects a leading stopword instead of skipping it. -/
theorem extract_stopword_skip_counterexample :
    "de".toList ∈ DEFAULT_STOPWORDS ∧
    lowerStr "parafuso".toList ∉ DEFAULT_STOPWORDS ∧
    3 ≤ "parafuso".toList.length ∧
    extract_first_word (PyInput.pystr "de parafuso".toList) DEFAULT_STOPWORDS []
      = some (Except.ok none) ∧
    extract_first_word (PyInput.pystr "de parafuso".toList) DEFAULT_STOPWORDS []
      ≠ some (Except.ok (some "parafuso".toList)) := by
  refine ⟨by decide, by decide, by decide, rfl, ?_⟩
  intro h
  rw [show extract_first_word (PyInput.pystr "de parafuso".toList)
      DEFAULT_STOPWORDS [] = some (Except.ok none) from rfl] at h
  cases h

/-- Witness for C2 (amended): the concrete instance `w = "de"`,
`v = "parafuso"` with the default stopword set. -/
theorem extract_stopword_then_valid_word_no_word_witness :
    extract_first_word
      (PyInput.pystr ("de".toList ++ ' ' :: "parafuso".toList))
      DEFAULT_STOPWORDS [] = some (Except.ok none) :=
  extract_stopword_then_valid_word_no_word "de".toList "parafuso".toList
    DEFAULT_STOPWORDS (by decide) (by decide) (by decide) (by decide)
    (by decide) (by decide) (by decide)

/-- C1 (amended): at every fuel, for every string input, stopword set and
ignore-phrase set, the code's extraction agrees with the spec's algorithm
whenever it returns a value or "no word"; the only deviation is that on a
stripped text with no alphanumeric character the code raises `IndexError`
(`Except.error`) where the spec's algorithm yields "no word" — and the two
sides run out of fuel together. -/
theorem extract_first_word_follows_spec :
    ∀ (fuel : Nat) (s : List Char) (sw ph : List (List Char)),
      (extractFirstWordFuel fuel (PyInput.pystr s) sw ph = none ∧
        specExtractFirstWordFuel fuel s sw ph = none) ∨
      (∃ r, extractFirstWordFuel fuel (PyInput.pystr s) sw ph = some (Except.ok r) ∧
        specExtractFirstWordFuel fuel s sw ph = some r) ∨
      (extractFirstWordFuel fuel (PyInput.pystr s) sw ph = some (Except.error ()) ∧
        specExtractFirstWordFuel fuel s sw ph = some none) := by
  intro fuel
  induction fuel with
  | zero => intro s sw ph; exact Or.inl ⟨rfl, rfl⟩
  | succ f ih =>
    intro s sw ph
    by_cases ht : (pyStrip s).isEmpty = true
    · refine Or.inr (Or.inl ⟨none, ?_, ?_⟩)
      · simp [extractFirstWordFuel, ht]
      · simp [specExtractFirstWordFuel, ht]
    · have ht' : (pyStrip s).isEmpty = false := eq_false_of_ne_true ht
      cases hf : (sortPhrasesDesc ph).find? (fun p => startsWithCI p (pyStrip s)) with
      | some p =>
        by_cases hr : (pyStrip ((pyStrip s).drop p.length)).isEmpty = true
        · refine Or.inr (Or.inl ⟨none, ?_, ?_⟩)
          · simp [extractFirstWordFuel, ht', hf, hr]
          · simp [specExtractFirstWordFuel, ht', hf, hr]
        · have hr' := eq_false_of_ne_true hr
          have hcode : extractFirstWordFuel (f + 1) (PyInput.pystr s) sw ph =
              extractFirstWordFuel f
                (PyInput.pystr (pyStrip ((pyStrip s).drop p.length))) sw ph := by
            simp only [extractFirstWordFuel, ht', Bool.false_eq_true, if_false, hf, hr']
          have hspec : specExtractFirstWordFuel (f + 1) s sw ph =
              specExtractFirstWordFuel f (pyStrip ((pyStrip s).drop p.length)) sw ph := by
            simp only [specExtractFirstWordFuel, ht', Bool.false_eq_true, if_false,
              hf, hr']
          rw [hcode, hspec]
          exact ih _ sw ph
      | none =>
        cases htok : firstToken ((pyStrip s).dropWhile (fun c => !isAlnumChar c)) with
        | none =>
          refine Or.inr (Or.inr ⟨?_, ?_⟩)
          · simp [extractFirstWordFuel, ht', hf, htok]
          · simp [specExtractFirstWordFuel, ht', hf, htok]
        | some w =>
          -- the code's extra guard `stopwords and ...` changes nothing
          have hguard : (!sw.isEmpty && memStr (lowerStr w) sw) =
              memStr (lowerStr w) sw := by
            cases sw with
            | nil => simp [memStr]
            | cons a l => simp
          by_cases hm : memStr (lowerStr w) sw = true
          · have hsw : sw ≠ [] := by
              intro hnil
              rw [hnil] at hm
              simp [memStr] at hm
            refine Or.inr (Or.inl ⟨none, ?_, ?_⟩)
            · simp [extractFirstWordFuel, ht', hf, htok, hguard, hm, hsw]
            · simp [specExtractFirstWordFuel, ht', hf, htok, hm]
          · have hm' : memStr (lowerStr w) sw = false := eq_false_of_ne_true hm
            by_cases hlen : w.length < 3
            · refine Or.inr (Or.inl ⟨none, ?_, ?_⟩)
              · simp [extractFirstWordFuel, ht', hf, htok, hguard, hm', hlen]
              · simp [specExtractFirstWordFuel, ht', hf, htok, hm', hlen]
            · refine Or.inr (Or.inl ⟨some w, ?_, ?_⟩)
              · simp [extractFirstWordFuel, ht', hf, htok, hguard, hm', hlen]
              · simp [specExtractFirstWordFuel, ht', hf, htok, hm', hlen]

/-- C1 counterexample: on the string `"!!!"` (no alphanumeric character) the
code raises `IndexError` (modelled `Except.error ()`) while the spec's
algorithm yields "no word", so extraction does not follow the spec's
algorithm on every string input. -/
theorem extract_first_word_spec_counterexample :
    extractFirstWordFuel 4 (PyInput.pystr "!!!".toList) DEFAULT_STOPWORDS []
      = some (Except.error ()) ∧
    specExtractFirstWordFuel 4 "!!!".toList DEFAULT_STOPWORDS [] = some none :=
  ⟨rfl, rfl⟩

/-- C8: `main.py`'s extraction returns "no word" (`None`) for null/NaN input
and for non-string input, but — contrary to the claim that no string input
raises — it raises `IndexError` (modelled `Except.error ()`) on a string
whose stripped text contains no alphanumeric character, such as `"!!!"`:
`re.sub` removes every character and `''.split()[0]` is out of range. -/
theorem extract_first_word_error_handling :
    extract_first_word PyInput.pynone DEFAULT_STOPWORDS [] =
      some (Except.ok none) ∧
    extract_first_word PyInput.pyother DEFAULT_STOPWORDS [] =
      some (Except.ok none) ∧
    extract_first_word (PyInput.pystr "!!!".toList) DEFAULT_STOPWORDS [] =
      some (Except.error ()) :=
  ⟨rfl, rfl, rfl⟩

set_option maxRecDepth 8000 in
/-- C3 (amended): on `"Parafuso 110v sextavado"` with the default stopwords,
no ignore-phrases and the example attribute configuration, `main.py`'s
extraction returns the token `"Parafuso"` with its original capitalisation —
`"parafuso"` is only its lowercase form — and the pattern matcher maps
`Voltagem` to `"110v"`. -/
theorem example_parafuso_110v :
    extract_first_word (PyInput.pystr "Parafuso 110v sextavado".toList)
      DEFAULT_STOPWORDS [] = some (Except.ok (some "Parafuso".toList)) ∧
    lowerStr "Parafuso".toList = "parafuso".toList ∧
    find_matches "Parafuso 110v sextavado".toList voltagemConfig =
      [("Voltagem".toList, "110v".toList)] :=
  ⟨rfl, rfl, by decide⟩

/-- C3 counterexample: extraction of `"Parafuso 110v sextavado"` does not
return the lowercase `"parafuso"` stated by the claim — `main.py` preserves
the original case and returns `"Parafuso"`. -/
theorem example_parafuso_case_counterexample :
    extract_first_word (PyInput.pystr "Parafuso 110v sextavado".toList)
      DEFAULT_STOPWORDS [] ≠ some (Except.ok (some "parafuso".toList)) := by
  intro h
  rw [show extract_first_word (PyInput.pystr "Parafuso 110v sextavado".toList)
      DEFAULT_STOPWORDS [] = some (Except.ok (some "Parafuso".toList)) from rfl] at h
  simp only [Option.some.injEq] at h
  cases h

theorem variationMatched_congr {tl : List Char} {u v : VariationData}
    (hp : List.Perm u.patterns v.patterns) :
    variationMatched tl u = variationMatched tl v := by
  unfold variationMatched
  apply Bool.coe_iff_coe.mp
  rw [List.any_eq_true, List.any_eq_true]
  constructor
  · rintro ⟨p, hpm, hfound⟩
    exact ⟨p, hp.mem_iff.mp hpm, hfound⟩
  · rintro ⟨p, hpm, hfound⟩
    exact ⟨p, hp.mem_iff.mpr hpm, hfound⟩

theorem matched_labels_congr {tl : List Char} {vs1 vs2 : List VariationData}
    (h : List.Forall₂ (fun u v => u.variation = v.variation ∧
      List.Perm u.patterns v.patterns) vs1 vs2) :
    (vs1.filter (variationMatched tl)).map VariationData.variation =
      (vs2.filter (variationMatched tl)).map VariationData.variation := by
  induction h with
  | nil => rfl
  | cons huv hrest ih =>
    rename_i u v l1 l2
    rw [List.filter_cons, List.filter_cons, variationMatched_congr huv.2]
    by_cases hm : variationMatched tl v = true
    · simp only [hm, if_true, List.map_cons, huv.1, ih]
    · simp only [eq_false_of_ne_true hm, Bool.false_eq_true, if_false, ih]

theorem findMatchesRow_congr (tl : List Char) {x y : List Char × List VariationData}
    (h1 : x.1 = y.1)
    (h2 : List.Forall₂ (fun u v => u.variation = v.variation ∧
      List.Perm u.patterns v.patterns) x.2 y.2) :
    findMatchesRow tl x = findMatchesRow tl y := by
  unfold findMatchesRow
  rw [matched_labels_congr h2, h1]

theorem filterMap_row_congr (tl : List Char)
    {c1 c2 : List (List Char × List VariationData)} (h : ConfigPermEquiv c1 c2) :
    c1.filterMap (findMatchesRow tl) = c2.filterMap (findMatchesRow tl) := by
  unfold ConfigPermEquiv at h
  induction h with
  | nil => rfl
  | cons hxy htail ih =>
    rw [List.filterMap_cons, List.filterMap_cons,
      findMatchesRow_congr tl hxy.1 hxy.2, ih]

/-- C5: pattern matching is order-independent within each variation — the
output of `find_matches` is unchanged when, for every attribute and every
variation, the list of patterns of that variation is permuted arbitrarily. -/
theorem find_matches_pattern_order_independent
    (t : List Char) (c1 c2 : List (List Char × List VariationData))
    (h : ConfigPermEquiv c1 c2) :
    find_matches t c1 = find_matches t c2 := by
  unfold find_matches
  have h' := h
  unfold ConfigPermEquiv at h'
  cases h' with
  | nil => rfl
  | cons hxy htail =>
    by_cases ht : t.isEmpty = true
    · simp [ht]
    · simp only [eq_false_of_ne_true ht, List.isEmpty_cons, Bool.or_self,
        Bool.false_eq_true, if_false]
      exact filterMap_row_congr (lowerStr t) (List.Forall₂.cons hxy htail)

/-- Witness for C5: swapping the two patterns of the `110v` variation leaves
the matcher's output on the example description unchanged. -/
theorem find_matches_pattern_order_independent_witness :
    find_matches "Parafuso 110v sextavado".toList voltagemConfig =
      find_matches "Parafuso 110v sextavado".toList
        [("Voltagem".toList,
          [⟨"110v".toList, ["110 v".toList, "110v".toList]⟩])] :=
  find_matches_pattern_order_independent _ _ _
    (List.Forall₂.cons
      ⟨rfl, List.Forall₂.cons ⟨rfl, by decide⟩ List.Forall₂.nil⟩
      List.Forall₂.nil)

theorem patternFound_nil (p : List Char) : patternFound [] p = false := by
  unfold patternFound
  rw [show List.range (([] : List Char).length + 1) = [0] from rfl]
  rw [List.any_cons, List.any_nil]
  simp [boundaryAt, isWordAt]

/-- C6: the pattern matcher's output maps attribute `a` to string `s` if and
only if at least one pattern of at least one of `a`'s variations occurs in
the text (case-insensitively, delimited by word boundaries), and `s` is the
`"/"`-join of the sorted deduplicated labels of the matched variations.  The
configuration models a Python dict, so its attribute keys are distinct. -/
theorem find_matches_characterization
    (t : List Char) (config : List (List Char × List VariationData))
    (hnd : (config.map Prod.fst).Nodup) (a s : List Char) :
    ((a, s) ∈ find_matches t config ↔
      ∃ vs, (a, vs) ∈ config ∧
        (∃ vd ∈ vs, ∃ p ∈ vd.patterns, patternFound (lowerStr t) p = true) ∧
        s = joinSlash (sortStrAsc (distinctFirst
          ((vs.filter (variationMatched (lowerStr t))).map
            VariationData.variation)))) := by
  unfold find_matches
  by_cases ht : t.isEmpty = true
  · rw [if_pos (by simp [ht])]
    have ht0 : t = [] := List.isEmpty_iff.mp ht
    subst ht0
    constructor
    · intro h
      cases h
    · rintro ⟨vs, hvs, ⟨vd, hvd, p, hp, hfound⟩, hs⟩
      rw [show lowerStr [] = [] from rfl, patternFound_nil] at hfound
      cases hfound
  · by_cases hcfg : config.isEmpty = true
    · rw [if_pos (by simp [hcfg])]
      have hc0 : config = [] := List.isEmpty_iff.mp hcfg
      subst hc0
      constructor
      · intro h
        cases h
      · rintro ⟨vs, hvs, _, _⟩
        cases hvs
    · rw [if_neg (by
        simp [eq_false_of_ne_true ht, eq_false_of_ne_true hcfg])]
      rw [List.mem_filterMap]
      constructor
      · rintro ⟨av, hav, hrow⟩
        unfold findMatchesRow at hrow
        by_cases hms : ((av.2.filter (variationMatched (lowerStr t))).map
            VariationData.variation).isEmpty = true
        · simp only [hms, if_true] at hrow
          cases hrow
        · simp only [eq_false_of_ne_true hms, Bool.false_eq_true, if_false,
            Option.some.injEq, Prod.mk.injEq] at hrow
          obtain ⟨ha, hs⟩ := hrow
          have hne : (av.2.filter (variationMatched (lowerStr t))) ≠ [] := by
            intro hnil
            apply hms
            rw [hnil]
            rfl
          obtain ⟨vd, hvdmem⟩ := List.exists_mem_of_ne_nil _ hne
          have hvdf := List.mem_filter.mp hvdmem
          have hany := List.any_eq_true.mp hvdf.2
          obtain ⟨p, hp, hfound⟩ := hany
          refine ⟨av.2, ?_, ⟨vd, hvdf.1, p, hp, hfound⟩, hs.symm⟩
          rw [show (a, av.2) = av from by rw [← ha]]
          exact hav
      · rintro ⟨vs, hvs, ⟨vd, hvd, p, hp, hfound⟩, hs⟩
        refine ⟨(a, vs), hvs, ?_⟩
        unfold findMatchesRow
        have hmatched : variationMatched (lowerStr t) vd = true := by
          unfold variationMatched
          rw [List.any_eq_true]
          exact ⟨p, hp, hfound⟩
        have hne : ((vs.filter (variationMatched (lowerStr t))).map
            VariationData.variation) ≠ [] := by
          intro hnil
          rw [List.map_eq_nil_iff] at hnil
          have : vd ∈ vs.filter (variationMatched (lowerStr t)) :=
            List.mem_filter.mpr ⟨hvd, hmatched⟩
          rw [hnil] at this
          cases this
        simp only [List.isEmpty_eq_false.mpr hne, Bool.false_eq_true, if_false,
          Option.some.injEq, Prod.mk.injEq]
        exact ⟨trivial, hs.symm⟩

set_option maxRecDepth 8000 in
/-- Witness for C6: on the example description and configuration, the
characterization yields the entry `Voltagem ↦ "110v"`. -/
theorem find_matches_characterization_witness :
    ("Voltagem".toList, "110v".toList) ∈
      find_matches "Parafuso 110v sextavado".toList voltagemConfig :=
  (find_matches_characterization "Parafuso 110v sextavado".toList
      voltagemConfig (by decide) "Voltagem".toList "110v".toList).mpr
    ⟨[⟨"110v".toList, ["110v".toList, "110 v".toList]⟩], by decide,
      ⟨⟨"110v".toList, ["110v".toList, "110 v".toList]⟩, by decide,
        "110v".toList, by decide, by decide⟩, by decide⟩

end Analisador
